import Mathlib

/-!
Shallow embedding of the patient-matching core of `app.py`
(name normalizer, roster index, identity resolver, batch orchestrator).

Strings are modelled as lists of character codes (`Str := List Nat`);
case folding is ASCII-only, which is the scope the program works in.
Missing spreadsheet cells (pandas `NaN`) are modelled as `Option` where a
claim depends on the distinction, and as the empty string elsewhere (the
code converts them to `""` on entry in those places).
-/

/-- Character-code strings. -/
abbrev Str := List Nat

/-- Character codes of a Lean string literal (used only to write concrete
test inputs). -/
def S (s : String) : Str := s.data.map Char.toNat

/-- Python whitespace characters in the ASCII range: space, tab, LF, VT,
FF, CR (what `str.strip()` / `str.split()` treat as whitespace). -/
def isPySpace (c : Nat) : Bool := c = 32 || c = 9 || c = 10 || c = 11 || c = 12 || c = 13

/-- ASCII lower-casing (`str.lower`). -/
def pyLower (c : Nat) : Nat := if 65 ≤ c ∧ c ≤ 90 then c + 32 else c

/-- ASCII upper-casing of one character (used by `str.capitalize`). -/
def pyUpper (c : Nat) : Nat := if 97 ≤ c ∧ c ≤ 122 then c - 32 else c

/-- `str.strip()`: drop leading and trailing whitespace. -/
def pyStrip (s : Str) : Str := ((s.dropWhile isPySpace).reverse.dropWhile isPySpace).reverse

/-- Helper for `str.split()`: scan the string, accumulating the current
token in reverse. -/
def splitAux : Str → Str → List Str
  | [], acc => if acc.isEmpty then [] else [acc.reverse]
  | c :: rest, acc =>
    if isPySpace c then
      if acc.isEmpty then splitAux rest [] else acc.reverse :: splitAux rest []
    else splitAux rest (c :: acc)

/-- `str.split()` with no separator: split on whitespace runs, no empty
tokens. -/
def pySplit (s : Str) : List Str := splitAux s []

/-- `" ".join(parts)`. -/
def joinSpace : List Str → Str
  | [] => []
  | [t] => t
  | t :: t' :: ts => t ++ 32 :: joinSpace (t' :: ts)

/-- `.replace(" ,", ",")` — left-to-right, non-overlapping, as Python's
`str.replace`. -/
def replSpaceComma : Str → Str
  | [] => []
  | [c] => [c]
  | c :: d :: rest =>
    if c = 32 ∧ d = 44 then 44 :: replSpaceComma rest
    else c :: replSpaceComma (d :: rest)

/-- `.replace(",  ", ", ")` — left-to-right, non-overlapping. -/
def replCommaTwoSpaces : Str → Str
  | [] => []
  | [c] => [c]
  | [c, d] => [c, d]
  | c :: d :: e :: rest =>
    if c = 44 ∧ d = 32 ∧ e = 32 then 44 :: 32 :: replCommaTwoSpaces rest
    else c :: replCommaTwoSpaces (d :: e :: rest)

/-- `.replace("  ", " ")` — left-to-right, non-overlapping. -/
def replTwoSpaces : Str → Str
  | [] => []
  | [c] => [c]
  | c :: d :: rest =>
    if c = 32 ∧ d = 32 then 32 :: replTwoSpaces rest
    else c :: replTwoSpaces (d :: rest)

/-- `PatientProcessor.clean_spaces`. -/
def clean_spaces (s : Str) : Str :=
  if s = [] then []
  else joinSpace (pySplit (replTwoSpaces (replCommaTwoSpaces (replSpaceComma (pyStrip s)))))

/-- `PatientProcessor.normalize_basic`: strip, lower-case, clean spacing,
then remove periods (code 46) and apostrophes (code 39). -/
def normalize_basic (x : Str) : Str :=
  let s := clean_spaces ((pyStrip x).map pyLower)
  (s.filter (fun c => c ≠ 46)).filter (fun c => c ≠ 39)

/-- The fixed suffix set of `app.py`. -/
def SUFFIXES : List Str := [S "jr", S "sr", S "ii", S "iii", S "iv", S "v", S "md", S "phd", S "psyd", S "do"]

/-- `parts[-1].lower() in SUFFIXES`. -/
def isSuffixTok (t : Str) : Bool := decide (t.map pyLower ∈ SUFFIXES)

/-- `PatientProcessor.strip_suffixes`: split on whitespace, pop trailing
tokens that are in the suffix set, rejoin with single spaces. -/
def strip_suffixes (name_part : Str) : Str :=
  joinSpace (((pySplit name_part).reverse.dropWhile isSuffixTok).reverse)

/-- The `format_hint` argument of `parse_patient_name`. -/
inductive FormatHint
  | auto
  | last_first
  | first_last
deriving DecidableEq

/-- `name.split(',', 1)` when a comma (code 44) is present: the part
before the first comma and the part after it. -/
def splitFirstComma (s : Str) : Str × Str :=
  (s.takeWhile (fun c => c ≠ 44), (s.dropWhile (fun c => c ≠ 44)).drop 1)

/-- `PatientProcessor.parse_patient_name`: returns the normalized
`(last_name, first_token)` pair. `none` from the inner candidate match
models the early `return ("", "")` when a `first_last` name has no
tokens. -/
def parse_patient_name (name : Str) (format_hint : FormatHint) : Str × Str :=
  if name = [] then ([], []) else
  let nm := pyStrip name
  let fmt := if format_hint = FormatHint.auto then
      (if 44 ∈ nm then FormatHint.last_first else FormatHint.first_last)
    else format_hint
  let cand : Option (Str × Str) :=
    if fmt = FormatHint.last_first then
      if 44 ∈ nm then some (pyStrip (splitFirstComma nm).1, pyStrip (splitFirstComma nm).2)
      else some (nm, [])
    else
      match pySplit nm with
      | [] => none
      | [p] => some (p, [])
      | p :: q :: rest => some ((q :: rest).getLast (by simp), joinSpace ((p :: q :: rest).dropLast))
  match cand with
  | none => ([], [])
  | some (last0, first0) =>
    let last1 := if 40 ∈ last0 then pyStrip (last0.takeWhile (fun c => c ≠ 40)) else last0
    let last2 := strip_suffixes (normalize_basic last1)
    let first2 := strip_suffixes (normalize_basic first0)
    let first_token := (pySplit first2).headD []
    (last2, first_token)

example : parse_patient_name (S "Smith, John") FormatHint.last_first = (S "smith", S "john") := by decide
example : parse_patient_name (S "John Smith") FormatHint.first_last = (S "smith", S "john") := by decide
example : parse_patient_name (S "Smith Jr") FormatHint.first_last = ([], S "smith") := by decide
example : parse_patient_name (S "Russell (Kwon), Mary") FormatHint.last_first = (S "russell", S "mary") := by decide

/-! ## Roster index and identity resolver -/

/-- One row of the mutual (roster) spreadsheet: raw name (column 1),
insurance code (column 2), insurance name (column 3). `NaN` cells are read
as the empty string, which is what the code converts them to. -/
structure RosterRow where
  name : Str
  code : Str
  insurance : Str

/-- The two index structures of `PatientProcessor` (`exact_map` and
`last_to_firsts`), as association lists with the same membership and
first-match lookup semantics as Python dicts. -/
structure MutualIndex where
  exact_map : List ((Str × Str) × (Str × Str))
  last_to_firsts : List (Str × List (Str × (Str × Str)))

/-- First-match association-list lookup (dict access). -/
def alistFind {α β : Type} [DecidableEq α] : List (α × β) → α → Option β
  | [], _ => none
  | (k, v) :: rest, a => if k = a then some v else alistFind rest a

/-- `self.last_to_firsts.setdefault(last, []).append(e)`. -/
def bucketAppend (bs : List (Str × List (Str × (Str × Str)))) (s : Str) (e : Str × (Str × Str)) :
    List (Str × List (Str × (Str × Str))) :=
  match bs with
  | [] => [(s, [e])]
  | (k, v) :: rest => if k = s then (k, v ++ [e]) :: rest else (k, v) :: bucketAppend rest s e

/-- The per-row body of `PatientProcessor.build_mutual_index`'s loop. -/
def insertRosterRow (idx : MutualIndex) (row : RosterRow) : MutualIndex :=
  let p := parse_patient_name row.name FormatHint.last_first
  if p.1 = [] then idx
  else
    let pair := (p.1, p.2)
    let payload := (row.code, row.insurance)
    let exact' := if (alistFind idx.exact_map pair).isSome then idx.exact_map
      else idx.exact_map ++ [(pair, payload)]
    let buckets' := if p.2 = [] then idx.last_to_firsts
      else bucketAppend idx.last_to_firsts p.1 (p.2, payload)
    ⟨exact', buckets'⟩

/-- `PatientProcessor.build_mutual_index`. -/
def build_mutual_index (rows : List RosterRow) : MutualIndex :=
  rows.foldl insertRosterRow ⟨[], []⟩

/-- `PatientProcessor.names_prefix_match`: true when either first token
starts with the other (`a.startswith(b) or b.startswith(a)`). -/
def names_prefix_match (a_first b_first : Str) : Bool :=
  if a_first = [] || b_first = [] then false
  else b_first.isPrefixOf a_first || a_first.isPrefixOf b_first

/-- `len(os.path.commonprefix([a, b]))`: length of the longest common
leading substring. -/
def commonPrefixLen : Str → Str → Nat
  | a :: as, b :: bs => if a = b then commonPrefixLen as bs + 1 else 0
  | _, _ => 0

/-- One iteration of the tier-3 loop of `lookup_mutual`: keep the
candidate when it passes the symmetric prefix test and its common-leading
length strictly exceeds the best so far (`best_len` starts at `-1`). -/
def bestStep (first_token : Str) (acc : Option (Str × Str) × Int) (cand : Str × (Str × Str)) :
    Option (Str × Str) × Int :=
  if names_prefix_match first_token cand.1 then
    let common : Int := (commonPrefixLen first_token cand.1 : Int)
    if acc.2 < common then (some cand.2, common) else acc
  else acc

/-- The tier-3 scan of `lookup_mutual` over `last_to_firsts[last]`. -/
def prefixScan (first_token : Str) (cands : List (Str × (Str × Str))) :
    Option (Str × Str) × Int :=
  cands.foldl (bestStep first_token) (none, -1)

/-- `PatientProcessor.lookup_mutual`: `(None, None)` is modelled as
`none`, a returned payload as `some (insurance_code, insurance_name)`. -/
def lookup_mutual (idx : MutualIndex) (last first_token : Str) : Option (Str × Str) :=
  if last = [] then none
  else match alistFind idx.exact_map (last, first_token) with
  | some p => some p
  | none =>
    match (if first_token ≠ [] then alistFind idx.exact_map (last, []) else none) with
    | some p => some p
    | none =>
      if first_token ≠ [] then (prefixScan first_token ((alistFind idx.last_to_firsts last).getD [])).1
      else none

example : lookup_mutual (build_mutual_index [⟨S "Smith, Jon", S "A1", S "Acme"⟩]) (S "smith") (S "john") = none := by decide
example : lookup_mutual (build_mutual_index [⟨S "Lee, Jo", S "B1", S "Blue"⟩, ⟨S "Lee, Joh", S "B2", S "Gold"⟩]) (S "lee") (S "john") = some (S "B2", S "Gold") := by decide

/-! ## Batch orchestrator -/

/-- `str.capitalize()` (ASCII scope): first character upper-cased, the
rest lower-cased. -/
def pyCapitalize (s : Str) : Str :=
  match s with
  | [] => []
  | c :: rest => pyUpper c :: rest.map pyLower

/-- `" ".join(w.capitalize() for w in s.split())`. -/
def titleWords (s : Str) : Str := joinSpace ((pySplit s).map pyCapitalize)

/-- One appointment record, with the fields the processing loop reads.
`status` is `Option` because the code distinguishes a missing (`NaN`)
status from a present one. -/
structure Appt where
  seenBy : Str
  patient : Str
  time : Str
  status : Option Str

/-- `PatientProcessor.process_status`. -/
def process_status (status : Option Str) : Str :=
  match status with
  | none => []
  | some s =>
    if s = [] then []
    else
      let t := pyStrip s
      if t.map pyLower = S "seen" then [] else t

/-- The display-name computation inside `process_appointments`
(`formatted_name`). When the normalized surname is empty the code falls
back to `str(patient_name)`, the raw input. -/
def formatted_name_of (patient : Str) (last first : Str) : Str :=
  if last ≠ [] ∧ first ≠ [] then titleWords last ++ 44 :: 32 :: titleWords first
  else if last ≠ [] then pyCapitalize last
  else patient

/-- One iteration of the appointment loop of `process_appointments`:
the 7-field output row (positions 0 name, 1 insurance, 2 date, 3 status,
6 codes; 4 and 5 left blank) and the `codes or insurance` truthiness used
for the matched count. `fmtDate` stands for `format_date`, whose
behaviour is pandas date parsing; no claim depends on it. -/
def processOne (idx : MutualIndex) (fmtDate : Str → Str) (apt : Appt) : List Str × Bool :=
  let p := parse_patient_name apt.patient FormatHint.first_last
  let fname := formatted_name_of apt.patient p.1 p.2
  let r := lookup_mutual idx p.1 p.2
  let codes : Str := match r with | none => [] | some q => q.1
  let insurance : Str := match r with | none => [] | some q => q.2
  let matched : Bool := match r with | none => false | some q => decide (q.1 ≠ []) || decide (q.2 ≠ [])
  ([fname, insurance, fmtDate apt.time, process_status apt.status, [], [], codes], matched)

/-- One step of the per-doctor loop of `process_appointments`: append the
output row and bump `matched_count` when `codes or insurance` is truthy. -/
def groupStep (idx : MutualIndex) (fmtDate : Str → Str)
    (acc : List (List Str) × Nat) (apt : Appt) : List (List Str) × Nat :=
  let r := processOne idx fmtDate apt
  (acc.1 ++ [r.1], acc.2 + (if r.2 then 1 else 0))

/-- The per-doctor loop of `process_appointments`: accumulate output rows
in order and count the matched ones. -/
def processGroup (idx : MutualIndex) (fmtDate : Str → Str) (appts : List Appt) :
    List (List Str) × Nat :=
  appts.foldl (groupStep idx fmtDate) ([], 0)

/-- `process_appointments` for one doctor: filter the appointment rows by
`SeenBy`, then run the group loop; the per-doctor stats entry is
`(total, matched) = (length of the filtered rows, matched count)`. -/
def processDoctor (idx : MutualIndex) (fmtDate : Str → Str) (doctor_full : Str)
    (appointment_rows : List Appt) : List (List Str) × Nat :=
  processGroup idx fmtDate (appointment_rows.filter (fun a => a.seenBy = doctor_full))

example : process_status (some (S "Seen")) = [] := by decide
example : process_status (some (S "sEEn")) = [] := by decide
example : process_status (some (S "Pending")) = S "Pending" := by decide
example : process_status (some (S " Pending ")) = S "Pending" := by decide

/-! ## Claims -/

/-- C1 counterexample: for the roster `[("Smith, Jon", "A1", "Acme")]`
and the query `(surname = "smith", given_token = "john")`, the resolver
does NOT return `("A1", "Acme")` — the claim's stated outcome is false at
this input. -/
theorem c1_counterexample :
    ¬ lookup_mutual (build_mutual_index [⟨S "Smith, Jon", S "A1", S "Acme"⟩])
      (S "smith") (S "john") = some (S "A1", S "Acme") := by decide

/-- C1 (amended): for the roster `[("Smith, Jon", "A1", "Acme")]` and the
query `("smith", "john")`, tiers 1 and 2 miss, and tier 3 also fails:
"john" and "jon" fail the symmetric prefix test (neither is a prefix of
the other), so resolution is NotFound. -/
theorem c1_amended :
    alistFind (build_mutual_index [⟨S "Smith, Jon", S "A1", S "Acme"⟩]).exact_map
      (S "smith", S "john") = none ∧
    alistFind (build_mutual_index [⟨S "Smith, Jon", S "A1", S "Acme"⟩]).exact_map
      (S "smith", []) = none ∧
    names_prefix_match (S "john") (S "jon") = false ∧
    lookup_mutual (build_mutual_index [⟨S "Smith, Jon", S "A1", S "Acme"⟩])
      (S "smith") (S "john") = none := by decide

/-- C2 counterexample: `parse_patient_name("Smith Jr", first_last)` is
not `("smith", "")` as the claim states. -/
theorem c2_counterexample :
    ¬ parse_patient_name (S "Smith Jr") FormatHint.first_last = (S "smith", []) := by decide

/-- C2 (amended): the first two listed examples hold, but under
`first_last` the trailing token "Jr" is taken as the surname candidate
and suffix-stripping empties it, so `parse_name("Smith Jr", first_last)
= ("", "smith")` — empty surname, given token "smith". -/
theorem c2_amended :
    parse_patient_name (S "Smith, John") FormatHint.last_first = (S "smith", S "john") ∧
    parse_patient_name (S "John Smith") FormatHint.first_last = (S "smith", S "john") ∧
    parse_patient_name (S "Smith Jr") FormatHint.first_last = ([], S "smith") := by decide

/-- C8 counterexample: `" Pending "` is not the case-insensitive literal
"seen", yet `process_status` does not return it unchanged (it strips the
surrounding whitespace). -/
theorem c8_counterexample :
    (S " Pending ").map pyLower ≠ S "seen" ∧
    process_status (some (S " Pending ")) ≠ S " Pending " := by decide

/-- C8 (amended): a missing or empty status yields the empty field; a
status whose whitespace-stripped, lower-cased form is the literal "seen"
is suppressed to the empty field; every other status is returned stripped
of surrounding whitespace (hence unchanged whenever it has none, e.g.
"Pending"). -/
theorem c8_amended :
    (process_status none = [] ∧ process_status (some []) = []) ∧
    (∀ s : Str, (pyStrip s).map pyLower = S "seen" → process_status (some s) = []) ∧
    (∀ s : Str, s ≠ [] → (pyStrip s).map pyLower ≠ S "seen" →
      process_status (some s) = pyStrip s) ∧
    process_status (some (S "Seen")) = [] ∧
    process_status (some (S "Pending")) = S "Pending" := by
  refine ⟨⟨rfl, rfl⟩, ?_, ?_, by decide, by decide⟩
  · intro s h
    by_cases hs : s = []
    · exact absurd (hs ▸ h) (by decide)
    · simp [process_status, if_neg hs, h]
  · intro s hs h
    simp only [process_status, if_neg hs, if_neg h]

/-- C8 witness: the amended theorem applied at concrete inputs — a
status that strips-and-lowers to "seen" is suppressed, and a status that
does not is returned stripped. -/
theorem c8_witness :
    process_status (some (S " SeEn ")) = [] ∧ process_status (some (S " Pending ")) = S "Pending" := by
  refine ⟨c8_amended.2.1 (S " SeEn ") (by decide), ?_⟩
  have h := c8_amended.2.2.1 (S " Pending ") (by decide) (by decide)
  simpa using h

/-- C9 counterexample: the patient names "." and "'" normalize to the
same (empty) name key, yet the output rows carry different display names
— the raw strings themselves — so the display name is not reconstructed
from the normalized pair. -/
theorem c9_counterexample :
    parse_patient_name (S ".") FormatHint.first_last =
      parse_patient_name (S "'") FormatHint.first_last ∧
    (processOne (build_mutual_index []) (fun _ => []) ⟨S "Doc", S ".", [], none⟩).1.headD [] ≠
      (processOne (build_mutual_index []) (fun _ => []) ⟨S "Doc", S "'", [], none⟩).1.headD [] := by
  decide

/-- C9 (amended): the display name is reconstructed from the normalized
tokens as title-cased "Surname, Given" when both the surname and the
given token are non-empty, and as the capitalized surname alone when only
the surname is non-empty; when the normalized surname is empty the raw
patient string is used verbatim instead. -/
theorem c9_amended (idx : MutualIndex) (fmtDate : Str → Str) (apt : Appt) :
    ((parse_patient_name apt.patient FormatHint.first_last).1 ≠ [] →
      (parse_patient_name apt.patient FormatHint.first_last).2 ≠ [] →
      (processOne idx fmtDate apt).1.headD [] =
        titleWords (parse_patient_name apt.patient FormatHint.first_last).1 ++
          44 :: 32 :: titleWords (parse_patient_name apt.patient FormatHint.first_last).2) ∧
    ((parse_patient_name apt.patient FormatHint.first_last).1 ≠ [] →
      (parse_patient_name apt.patient FormatHint.first_last).2 = [] →
      (processOne idx fmtDate apt).1.headD [] =
        pyCapitalize (parse_patient_name apt.patient FormatHint.first_last).1) ∧
    ((parse_patient_name apt.patient FormatHint.first_last).1 = [] →
      (processOne idx fmtDate apt).1.headD [] = apt.patient) := by
  refine ⟨?_, ?_, ?_⟩
  · intro h1 h2
    simp [processOne, formatted_name_of, h1, h2]
  · intro h1 h2
    simp [processOne, formatted_name_of, h1, h2]
  · intro h1
    simp [processOne, formatted_name_of, h1]

/-- C9 witness: the amended theorem at three concrete appointments —
"john smith" (both tokens), "Smith," under first-last parsing reduces to
surname only via the single-token branch ("Smith" alone), and "." (empty
surname, raw fallback). -/
theorem c9_witness :
    (processOne (build_mutual_index []) (fun _ => []) ⟨S "Doc", S "john smith", [], none⟩).1.headD [] =
      titleWords (S "smith") ++ 44 :: 32 :: titleWords (S "john") ∧
    (processOne (build_mutual_index []) (fun _ => []) ⟨S "Doc", S "Smith", [], none⟩).1.headD [] =
      pyCapitalize (S "smith") ∧
    (processOne (build_mutual_index []) (fun _ => []) ⟨S "Doc", S ".", [], none⟩).1.headD [] = S "." := by
  refine ⟨?_, ?_, ?_⟩
  · have h := (c9_amended (build_mutual_index []) (fun _ => []) ⟨S "Doc", S "john smith", [], none⟩).1
      (by decide) (by decide)
    rw [h]; decide
  · have h := (c9_amended (build_mutual_index []) (fun _ => []) ⟨S "Doc", S "Smith", [], none⟩).2.1
      (by decide) (by decide)
    rw [h]; decide
  · have h := (c9_amended (build_mutual_index []) (fun _ => []) ⟨S "Doc", S ".", [], none⟩).2.2
      (by decide)
    rw [h]

/-! ## Index invariants -/

theorem alistFind_append {α β : Type} [DecidableEq α] (l l' : List (α × β)) (a : α) :
    alistFind (l ++ l') a = match alistFind l a with
      | some v => some v
      | none => alistFind l' a := by
  induction l with
  | nil => simp [alistFind]
  | cons kv rest ih =>
    obtain ⟨k, v⟩ := kv
    by_cases hk : k = a
    · simp [alistFind, hk]
    · simp [alistFind, hk, ih]

theorem exact_insert_no_empty (idx : MutualIndex) (row : RosterRow) (f : Str)
    (h : alistFind idx.exact_map ([], f) = none) :
    alistFind (insertRosterRow idx row).exact_map ([], f) = none := by
  unfold insertRosterRow
  by_cases hp : (parse_patient_name row.name FormatHint.last_first).1 = []
  · simp [hp, h]
  · simp only [hp, if_false]
    by_cases hs : (alistFind idx.exact_map
        ((parse_patient_name row.name FormatHint.last_first).1,
         (parse_patient_name row.name FormatHint.last_first).2)).isSome
    · simp [hs, h]
    · simp only [hs, if_false, if_true, Bool.false_eq_true]
      rw [alistFind_append, h]
      simp [alistFind, hp, Prod.ext_iff]

theorem bucketAppend_find_other (bs : List (Str × List (Str × (Str × Str))))
    (s s' : Str) (e : Str × (Str × Str)) (h : s' ≠ s) :
    alistFind (bucketAppend bs s e) s' = alistFind bs s' := by
  induction bs with
  | nil => simp [bucketAppend, alistFind, Ne.symm h]
  | cons kv rest ih =>
    obtain ⟨k, v⟩ := kv
    by_cases hk : k = s
    · subst hk
      have hk' : ¬ k = s' := fun he => h he.symm
      simp [bucketAppend, alistFind, hk']
    · simp only [bucketAppend, if_neg hk]
      by_cases hk' : k = s'
      · simp [alistFind, hk']
      · simp [alistFind, hk', ih]

theorem buckets_insert_no_empty (idx : MutualIndex) (row : RosterRow)
    (h : alistFind idx.last_to_firsts [] = none) :
    alistFind (insertRosterRow idx row).last_to_firsts [] = none := by
  unfold insertRosterRow
  by_cases hp : (parse_patient_name row.name FormatHint.last_first).1 = []
  · simp [hp, h]
  · simp only [hp, if_false]
    by_cases hf : (parse_patient_name row.name FormatHint.last_first).2 = []
    · simp [hf, h]
    · simp only [hf, if_false]
      rw [bucketAppend_find_other _ _ _ _ (fun he => hp he.symm)]
      exact h

theorem build_exact_no_empty_aux (rows : List RosterRow) (f : Str) :
    ∀ idx : MutualIndex, alistFind idx.exact_map ([], f) = none →
      alistFind (List.foldl insertRosterRow idx rows).exact_map ([], f) = none := by
  induction rows with
  | nil => intro idx h; simpa using h
  | cons row rest ih =>
    intro idx h
    simpa using ih (insertRosterRow idx row) (exact_insert_no_empty idx row f h)

theorem build_buckets_no_empty_aux (rows : List RosterRow) :
    ∀ idx : MutualIndex, alistFind idx.last_to_firsts [] = none →
      alistFind (List.foldl insertRosterRow idx rows).last_to_firsts [] = none := by
  induction rows with
  | nil => intro idx h; simpa using h
  | cons row rest ih =>
    intro idx h
    simpa using ih (insertRosterRow idx row) (buckets_insert_no_empty idx row h)

/-- C5: empty-surname names never match anywhere: after `build_mutual_index`
no empty-surname key is found in the exact map or in the surname buckets,
a roster row whose normalized surname is empty leaves the index unchanged,
and a resolution query with an empty surname is NotFound for every given
token and every index. -/
theorem c5_empty_surname :
    (∀ (rows : List RosterRow) (f : Str),
      alistFind (build_mutual_index rows).exact_map ([], f) = none) ∧
    (∀ rows : List RosterRow,
      alistFind (build_mutual_index rows).last_to_firsts [] = none) ∧
    (∀ (idx : MutualIndex) (row : RosterRow),
      (parse_patient_name row.name FormatHint.last_first).1 = [] →
      insertRosterRow idx row = idx) ∧
    (∀ (idx : MutualIndex) (f : Str), lookup_mutual idx [] f = none) := by
  refine ⟨?_, ?_, ?_, ?_⟩
  · intro rows f
    exact build_exact_no_empty_aux rows f ⟨[], []⟩ rfl
  · intro rows
    exact build_buckets_no_empty_aux rows ⟨[], []⟩ rfl
  · intro idx row h
    simp [insertRosterRow, h]
  · intro idx f
    simp [lookup_mutual]

/-- C5 witness: the invariant at a concrete roster whose single row has
an unparseable (empty-surname) name, and a concrete empty-surname query. -/
theorem c5_witness :
    alistFind (build_mutual_index [⟨S ".", S "X1", S "Xco"⟩]).exact_map ([], S "x") = none ∧
    alistFind (build_mutual_index [⟨S ".", S "X1", S "Xco"⟩]).last_to_firsts [] = none ∧
    insertRosterRow ⟨[], []⟩ ⟨S ".", S "X1", S "Xco"⟩ = ⟨[], []⟩ ∧
    lookup_mutual (build_mutual_index [⟨S ".", S "X1", S "Xco"⟩]) [] (S "x") = none := by
  refine ⟨c5_empty_surname.1 _ _, c5_empty_surname.2.1 _,
    c5_empty_surname.2.2.1 ⟨[], []⟩ ⟨S ".", S "X1", S "Xco"⟩ (by decide),
    c5_empty_surname.2.2.2 _ _⟩

theorem build_exact_none (rows : List RosterRow) (f : Str) :
    alistFind (build_mutual_index rows).exact_map ([], f) = none := by
  rw [build_mutual_index]
  exact build_exact_no_empty_aux rows f ⟨[], []⟩ rfl

theorem build_buckets_none (rows : List RosterRow) :
    alistFind (build_mutual_index rows).last_to_firsts [] = none := by
  rw [build_mutual_index]
  exact build_buckets_no_empty_aux rows ⟨[], []⟩ rfl

/-- C4: resolution follows the three tiers in strict order, first success
winning, over any built index: (tier 1) if the exact key
`(surname, given_token)` — which is `(surname, "")` when the given token
is empty — is present, its payload is returned; (tier 2) otherwise, if
the given token is non-empty and `(surname, "")` is present, that payload
is returned before any prefix scan; (tier 3) only when both miss is the
prefix scan over `by_surname[surname]` consulted, and its outcome is the
result. -/
theorem c4_three_tiers (rows : List RosterRow) (last first_token : Str) :
    (∀ p, alistFind (build_mutual_index rows).exact_map (last, first_token) = some p →
      lookup_mutual (build_mutual_index rows) last first_token = some p) ∧
    (∀ p, alistFind (build_mutual_index rows).exact_map (last, first_token) = none →
      first_token ≠ [] →
      alistFind (build_mutual_index rows).exact_map (last, []) = some p →
      lookup_mutual (build_mutual_index rows) last first_token = some p) ∧
    (alistFind (build_mutual_index rows).exact_map (last, first_token) = none →
      alistFind (build_mutual_index rows).exact_map (last, []) = none →
      first_token ≠ [] →
      lookup_mutual (build_mutual_index rows) last first_token =
        (prefixScan first_token
          ((alistFind (build_mutual_index rows).last_to_firsts last).getD [])).1) := by
  have hne : ∀ p, alistFind (build_mutual_index rows).exact_map (last, first_token) = some p →
      last ≠ [] := by
    intro p hp hl
    subst hl
    rw [build_exact_none rows first_token] at hp
    exact Option.noConfusion hp
  refine ⟨?_, ?_, ?_⟩
  · intro p hp
    rw [lookup_mutual, if_neg (hne p hp), hp]
  · intro p h1 hf h2
    have hl : last ≠ [] := by
      intro hl
      subst hl
      rw [build_exact_none rows []] at h2
      exact Option.noConfusion h2
    rw [lookup_mutual, if_neg hl, h1]
    simp [hf, h2]
  · intro h1 h2 hf
    by_cases hl : last = []
    · subst hl
      rw [lookup_mutual]
      simp only [if_pos rfl]
      rw [build_buckets_none rows]
      simp [prefixScan]
    · rw [lookup_mutual, if_neg hl, h1]
      simp [hf, h2]

/-- C4 witness: the three tiers at concrete inputs — an exact-pair hit, a
surname-only fallback hit, and a prefix-scan fallback. -/
theorem c4_witness :
    lookup_mutual (build_mutual_index [⟨S "Smith, John", S "A1", S "Acme"⟩])
      (S "smith") (S "john") = some (S "A1", S "Acme") ∧
    lookup_mutual (build_mutual_index [⟨S "Smith", S "A2", S "Bcme"⟩])
      (S "smith") (S "john") = some (S "A2", S "Bcme") ∧
    lookup_mutual (build_mutual_index [⟨S "Smith, Johnny", S "A3", S "Ccme"⟩])
      (S "smith") (S "john") =
      (prefixScan (S "john")
        ((alistFind (build_mutual_index [⟨S "Smith, Johnny", S "A3", S "Ccme"⟩]).last_to_firsts
          (S "smith")).getD [])).1 := by
  refine ⟨(c4_three_tiers _ _ _).1 _ (by decide),
    (c4_three_tiers _ _ _).2.1 _ (by decide) (by decide) (by decide),
    (c4_three_tiers _ _ _).2.2 (by decide) (by decide) (by decide)⟩

/-! ## Matched-count accounting -/

/-- A produced output row carries a non-empty resolved payload: its
insurance field (position 1) or its codes field (position 6) is
non-empty. -/
def matchedRowFields (row : List Str) : Bool :=
  decide (row.getD 1 [] ≠ []) || decide (row.getD 6 [] ≠ [])

theorem flag_of_row (r : Option (Str × Str)) (fname date status : Str) :
    (match r with | none => false | some q => decide (q.1 ≠ []) || decide (q.2 ≠ [])) =
      matchedRowFields [fname, (match r with | none => [] | some q => q.2), date, status,
        [], [], (match r with | none => [] | some q => q.1)] := by
  cases r <;> simp [matchedRowFields, List.getD, Bool.or_comm]

theorem processOne_flag (idx : MutualIndex) (fmtDate : Str → Str) (apt : Appt) :
    (processOne idx fmtDate apt).2 = matchedRowFields (processOne idx fmtDate apt).1 := by
  simp only [processOne]
  exact flag_of_row _ _ _ _

theorem processGroup_count_aux (idx : MutualIndex) (fmtDate : Str → Str) :
    ∀ (appts : List Appt) (rows0 : List (List Str)) (n0 : Nat),
      n0 = (rows0.filter matchedRowFields).length →
      (List.foldl (groupStep idx fmtDate) (rows0, n0) appts).2 =
        ((List.foldl (groupStep idx fmtDate) (rows0, n0) appts).1.filter matchedRowFields).length := by
  intro appts
  induction appts with
  | nil => intro rows0 n0 h; simpa using h
  | cons apt rest ih =>
    intro rows0 n0 h
    simp only [List.foldl_cons]
    apply ih
    simp only [groupStep]
    rw [List.filter_append, List.length_append, ← h, processOne_flag idx fmtDate apt]
    cases hb : matchedRowFields (processOne idx fmtDate apt).1 <;> simp [List.filter, hb]

/-- C7: the matched flag of an appointment is true exactly when the
resolved payload has a non-empty component (equivalently, when the output
row's insurance or codes field is non-empty); the per-group matched count
equals the number of output rows with a non-empty resolved payload; and
an unresolved appointment yields empty insurance and codes fields with a
false matched flag. -/
theorem c7_matched_accounting :
    (∀ (idx : MutualIndex) (fmtDate : Str → Str) (appts : List Appt),
      (processGroup idx fmtDate appts).2 =
        ((processGroup idx fmtDate appts).1.filter matchedRowFields).length) ∧
    (∀ (idx : MutualIndex) (fmtDate : Str → Str) (apt : Appt),
      (processOne idx fmtDate apt).2 = true ↔
        ((processOne idx fmtDate apt).1.getD 1 [] ≠ [] ∨
         (processOne idx fmtDate apt).1.getD 6 [] ≠ [])) ∧
    (∀ (idx : MutualIndex) (fmtDate : Str → Str) (apt : Appt),
      lookup_mutual idx (parse_patient_name apt.patient FormatHint.first_last).1
        (parse_patient_name apt.patient FormatHint.first_last).2 = none →
      (processOne idx fmtDate apt).1.getD 1 [] = [] ∧
      (processOne idx fmtDate apt).1.getD 6 [] = [] ∧
      (processOne idx fmtDate apt).2 = false) := by
  refine ⟨?_, ?_, ?_⟩
  · intro idx fmtDate appts
    exact processGroup_count_aux idx fmtDate appts [] 0 rfl
  · intro idx fmtDate apt
    rw [processOne_flag idx fmtDate apt, matchedRowFields]
    simp
  · intro idx fmtDate apt h
    simp only [processOne, h]
    simp [List.getD]

/-- C7 witness: a concrete unresolved appointment (empty roster) yields
empty insurance and codes fields, a false flag, and a group matched count
that equals the number of payload-carrying rows (here zero). -/
theorem c7_witness :
    ((processOne (build_mutual_index []) (fun _ => []) ⟨S "Doc", S "john smith", [], none⟩).1.getD 1 [] = [] ∧
     (processOne (build_mutual_index []) (fun _ => []) ⟨S "Doc", S "john smith", [], none⟩).1.getD 6 [] = [] ∧
     (processOne (build_mutual_index []) (fun _ => []) ⟨S "Doc", S "john smith", [], none⟩).2 = false) ∧
    (processGroup (build_mutual_index []) (fun _ => []) [⟨S "Doc", S "john smith", [], none⟩]).2 =
      ((processGroup (build_mutual_index []) (fun _ => []) [⟨S "Doc", S "john smith", [], none⟩]).1.filter
        matchedRowFields).length := by
  exact ⟨c7_matched_accounting.2.2 _ _ _ (by decide), c7_matched_accounting.1 _ _ _⟩

/-! ## Index-construction characterization -/

/-- Spec-side description of a roster row's contribution to the exact
map: its normalized key and payload, or nothing when the row is skipped
(empty normalized surname). -/
def rosterKey (row : RosterRow) : Option ((Str × Str) × (Str × Str)) :=
  let p := parse_patient_name row.name FormatHint.last_first
  if p.1 = [] then none else some ((p.1, p.2), (row.code, row.insurance))

/-- Spec-side description of a roster row's contribution to
`by_surname[s]`: its `(given_token, payload)` pair when the row's
normalized surname is `s` (non-empty) and its given token is non-empty. -/
def bucketEntryOf (s : Str) (row : RosterRow) : Option (Str × (Str × Str)) :=
  let p := parse_patient_name row.name FormatHint.last_first
  if p.1 = s ∧ p.1 ≠ [] ∧ p.2 ≠ [] then some (p.2, (row.code, row.insurance)) else none

theorem bucketAppend_find (bs : List (Str × List (Str × (Str × Str))))
    (t s : Str) (e : Str × (Str × Str)) :
    (alistFind (bucketAppend bs t e) s).getD [] =
      (alistFind bs s).getD [] ++ (if s = t then [e] else []) := by
  induction bs with
  | nil =>
    by_cases h : t = s
    · simp [bucketAppend, alistFind, h]
    · simp [bucketAppend, alistFind, h, Ne.symm h]
  | cons kv rest ih =>
    obtain ⟨k, v⟩ := kv
    by_cases hk : k = t
    · subst hk
      by_cases hs : k = s
      · subst hs
        simp [bucketAppend, alistFind]
      · simp [bucketAppend, alistFind, hs, Ne.symm hs]
    · simp only [bucketAppend, if_neg hk]
      by_cases hs : k = s
      · subst hs
        simp [alistFind, hk]
      · simp [alistFind, hs, ih]

theorem build_exact_char_aux (rows : List RosterRow) (k : Str × Str) :
    ∀ idx : MutualIndex,
      alistFind (List.foldl insertRosterRow idx rows).exact_map k =
        match alistFind idx.exact_map k with
        | some p => some p
        | none => ((rows.filterMap rosterKey).find? (fun e => decide (e.1 = k))).map (fun e => e.2) := by
  induction rows with
  | nil =>
    intro idx
    cases h : alistFind idx.exact_map k <;> simp [h]
  | cons row rest ih =>
    intro idx
    rw [List.foldl_cons, ih (insertRosterRow idx row)]
    by_cases hp : (parse_patient_name row.name FormatHint.last_first).1 = []
    · have hrk : rosterKey row = none := by simp [rosterKey, hp]
      have hins : insertRosterRow idx row = idx := by simp [insertRosterRow, hp]
      rw [hins]
      simp only [List.filterMap_cons, hrk]
    · have hrk : rosterKey row = some
          (((parse_patient_name row.name FormatHint.last_first).1,
            (parse_patient_name row.name FormatHint.last_first).2),
           (row.code, row.insurance)) := by simp [rosterKey, hp]
      simp only [List.filterMap_cons, hrk]
      by_cases hdup : (alistFind idx.exact_map
          ((parse_patient_name row.name FormatHint.last_first).1,
           (parse_patient_name row.name FormatHint.last_first).2)).isSome
      · have hins : (insertRosterRow idx row).exact_map = idx.exact_map := by
          simp [insertRosterRow, hp, hdup]
        rw [hins]
        by_cases hkk : ((parse_patient_name row.name FormatHint.last_first).1,
            (parse_patient_name row.name FormatHint.last_first).2) = k
        · obtain ⟨q, hq⟩ := Option.isSome_iff_exists.mp hdup
          rw [← hkk, hq]
        · simp [List.find?, hkk]
      · have hins : (insertRosterRow idx row).exact_map = idx.exact_map ++ [(
            ((parse_patient_name row.name FormatHint.last_first).1,
             (parse_patient_name row.name FormatHint.last_first).2),
            (row.code, row.insurance))] := by
          simp [insertRosterRow, hp, hdup]
        have hnone : alistFind idx.exact_map
            ((parse_patient_name row.name FormatHint.last_first).1,
             (parse_patient_name row.name FormatHint.last_first).2) = none :=
          Option.not_isSome_iff_eq_none.mp hdup
        rw [hins, alistFind_append]
        by_cases hkk : ((parse_patient_name row.name FormatHint.last_first).1,
            (parse_patient_name row.name FormatHint.last_first).2) = k
        · rw [← hkk, hnone]
          simp [alistFind, List.find?]
        · cases hidx : alistFind idx.exact_map k with
          | some v => simp [hidx, alistFind, hkk, List.find?]
          | none => simp [hidx, alistFind, hkk, List.find?]

theorem build_buckets_char_aux (rows : List RosterRow) (s : Str) :
    ∀ idx : MutualIndex,
      (alistFind (List.foldl insertRosterRow idx rows).last_to_firsts s).getD [] =
        (alistFind idx.last_to_firsts s).getD [] ++ rows.filterMap (bucketEntryOf s) := by
  induction rows with
  | nil => intro idx; simp
  | cons row rest ih =>
    intro idx
    rw [List.foldl_cons, ih (insertRosterRow idx row)]
    by_cases hp : (parse_patient_name row.name FormatHint.last_first).1 = []
    · have hins : insertRosterRow idx row = idx := by simp [insertRosterRow, hp]
      have hbe : bucketEntryOf s row = none := by
        simp only [bucketEntryOf]
        rw [if_neg]
        exact fun h => h.2.1 hp
      rw [hins]
      simp [List.filterMap_cons, hbe]
    · by_cases hf : (parse_patient_name row.name FormatHint.last_first).2 = []
      · have hins : (insertRosterRow idx row).last_to_firsts = idx.last_to_firsts := by
          simp [insertRosterRow, hp, hf]
        have hbe : bucketEntryOf s row = none := by
          simp only [bucketEntryOf]
          rw [if_neg]
          exact fun h => h.2.2 hf
        rw [hins]
        simp [List.filterMap_cons, hbe]
      · have hins : (insertRosterRow idx row).last_to_firsts =
            bucketAppend idx.last_to_firsts (parse_patient_name row.name FormatHint.last_first).1
              ((parse_patient_name row.name FormatHint.last_first).2, (row.code, row.insurance)) := by
          simp [insertRosterRow, hp, hf]
        rw [hins, bucketAppend_find]
        by_cases hs : s = (parse_patient_name row.name FormatHint.last_first).1
        · have hbe : bucketEntryOf s row = some
              ((parse_patient_name row.name FormatHint.last_first).2, (row.code, row.insurance)) := by
            simp only [bucketEntryOf]
            rw [if_pos ⟨hs.symm, hp, hf⟩]
          rw [List.filterMap_cons, hbe]
          simp [hs, List.append_assoc]
        · have hbe : bucketEntryOf s row = none := by
            simp only [bucketEntryOf]
            rw [if_neg]
            exact fun h => hs h.1.symm
          rw [List.filterMap_cons, hbe]
          simp [hs]

/-- C6: on duplicate normalized keys the exact map keeps the first-seen
payload — looking up any key after the build returns the payload of the
first roster row contributing that key — while `by_surname[s]` is exactly
the list of `(given_token, payload)` pairs of all rows with non-empty
given token normalizing to surname `s`, in input order, regardless of
exact-map duplication. -/
theorem c6_duplicates :
    (∀ (rows : List RosterRow) (k : Str × Str),
      alistFind (build_mutual_index rows).exact_map k =
        ((rows.filterMap rosterKey).find? (fun e => decide (e.1 = k))).map (fun e => e.2)) ∧
    (∀ (rows : List RosterRow) (s : Str),
      (alistFind (build_mutual_index rows).last_to_firsts s).getD [] =
        rows.filterMap (bucketEntryOf s)) := by
  constructor
  · intro rows k
    rw [build_mutual_index, build_exact_char_aux rows k ⟨[], []⟩]
    simp [alistFind]
  · intro rows s
    rw [build_mutual_index, build_buckets_char_aux rows s ⟨[], []⟩]
    simp [alistFind]

/-! ## Tier-3 tie-breaking -/

/-- The tier-3 loop body restricted to eligible candidates (the prefix
test already passed). -/
def updStep (ft : Str) (acc : Option (Str × Str) × Int) (cand : Str × (Str × Str)) :
    Option (Str × Str) × Int :=
  if acc.2 < (commonPrefixLen ft cand.1 : Int) then
    (some cand.2, (commonPrefixLen ft cand.1 : Int))
  else acc

/-- The eligible candidates: those passing the symmetric prefix test. -/
def eligibleCands (ft : Str) (cands : List (Str × (Str × Str))) : List (Str × (Str × Str)) :=
  cands.filter (fun c => names_prefix_match ft c.1)

/-- Greatest common-leading length over a candidate list, as the scan's
`best_len` would see it (`-1` on the empty list). -/
def maxCommonI (ft : Str) (el : List (Str × (Str × Str))) : Int :=
  (el.map (fun c => (commonPrefixLen ft c.1 : Int))).foldr max (-1)

/-- Greatest common-leading length over a candidate list. -/
def maxCommonLen (ft : Str) (el : List (Str × (Str × Str))) : Nat :=
  (el.map (fun c => commonPrefixLen ft c.1)).foldr max 0

/-- Spec-side selection rule: the earliest candidate achieving the
maximal common-leading length with the query token. -/
def firstArgmax (ft : Str) (el : List (Str × (Str × Str))) : Option (Str × Str) :=
  (el.find? (fun c => decide (commonPrefixLen ft c.1 = maxCommonLen ft el))).map (fun c => c.2)

theorem foldl_bestStep_eq_filtered (ft : Str) :
    ∀ (cands : List (Str × (Str × Str))) (acc : Option (Str × Str) × Int),
      List.foldl (bestStep ft) acc cands =
        List.foldl (updStep ft) acc (cands.filter (fun c => names_prefix_match ft c.1)) := by
  intro cands
  induction cands with
  | nil => intro acc; rfl
  | cons c rest ih =>
    intro acc
    cases h : names_prefix_match ft c.1 with
    | true =>
      simp only [List.foldl_cons, List.filter_cons, h, if_true]
      rw [ih]
      congr 1
      simp [bestStep, updStep, h]
    | false =>
      simp only [List.foldl_cons, List.filter_cons, h]
      rw [ih]
      congr 1
      simp [bestStep, h]

theorem foldl_updStep_char (ft : Str) :
    ∀ (el : List (Str × (Str × Str))) (b : Option (Str × Str)) (l : Int), -1 ≤ l →
      List.foldl (updStep ft) (b, l) el =
        if maxCommonI ft el ≤ l then (b, l)
        else ((el.find? (fun c =>
            decide ((commonPrefixLen ft c.1 : Int) = maxCommonI ft el))).map (fun c => c.2),
          maxCommonI ft el) := by
  intro el
  induction el with
  | nil =>
    intro b l hl
    simp only [List.foldl_nil, maxCommonI, List.map_nil, List.foldr_nil]
    rw [if_pos hl]
  | cons c rest ih =>
    intro b l hl
    have hm0 : (0 : Int) ≤ (commonPrefixLen ft c.1 : Int) := Int.natCast_nonneg _
    have hmax : maxCommonI ft (c :: rest) =
        max ((commonPrefixLen ft c.1 : Int)) (maxCommonI ft rest) := by
      simp [maxCommonI]
    simp only [List.foldl_cons]
    by_cases hlm : l < (commonPrefixLen ft c.1 : Int)
    · have hstep : updStep ft (b, l) c =
          (some c.2, (commonPrefixLen ft c.1 : Int)) := by
        simp [updStep, hlm]
      rw [hstep, ih (some c.2) ((commonPrefixLen ft c.1 : Int)) (le_trans (by omega) hm0)]
      by_cases hr : maxCommonI ft rest ≤ (commonPrefixLen ft c.1 : Int)
      · have htot : maxCommonI ft (c :: rest) = (commonPrefixLen ft c.1 : Int) := by
          rw [hmax]; exact max_eq_left hr
        rw [if_pos hr, htot, if_neg (by omega)]
        simp [List.find?]
      · have hlt : (commonPrefixLen ft c.1 : Int) < maxCommonI ft rest := by omega
        have htot : maxCommonI ft (c :: rest) = maxCommonI ft rest := by
          rw [hmax]; exact max_eq_right (le_of_lt hlt)
        rw [if_neg hr, htot, if_neg (by omega)]
        have hpc : (fun c' : Str × (Str × Str) =>
            decide ((commonPrefixLen ft c'.1 : Int) = maxCommonI ft rest)) c = false := by
          simp; omega
        rw [List.find?_cons_of_neg _ (by simpa using hpc)]
    · have hstep : updStep ft (b, l) c = (b, l) := by
        simp [updStep, hlm]
      rw [hstep, ih b l hl]
      have hml : (commonPrefixLen ft c.1 : Int) ≤ l := by omega
      by_cases hr : maxCommonI ft rest ≤ l
      · have htot : maxCommonI ft (c :: rest) ≤ l := by rw [hmax]; exact max_le hml hr
        rw [if_pos hr, if_pos htot]
      · have hlt : l < maxCommonI ft rest := by omega
        have htot : maxCommonI ft (c :: rest) = maxCommonI ft rest := by
          rw [hmax]; exact max_eq_right (by omega)
        rw [if_neg hr, htot, if_neg (by omega)]
        have hpc : ¬ ((commonPrefixLen ft c.1 : Int) = maxCommonI ft rest) := by omega
        rw [List.find?_cons_of_neg _ (by simpa using hpc)]

theorem maxCommonI_eq_cast (ft : Str) :
    ∀ el : List (Str × (Str × Str)), el ≠ [] →
      maxCommonI ft el = (maxCommonLen ft el : Int) := by
  intro el
  induction el with
  | nil => intro h; exact absurd rfl h
  | cons c rest ih =>
    intro _
    cases rest with
    | nil =>
      simp only [maxCommonI, maxCommonLen, List.map_cons, List.map_nil, List.foldr_cons,
        List.foldr_nil]
      omega
    | cons d rest' =>
      have hr := ih (by simp)
      simp only [maxCommonI, maxCommonLen, List.map_cons, List.foldr_cons] at hr ⊢
      rw [hr]
      simp [Nat.cast_max]

/-- C3: in the tier-3 prefix fallback the scan returns the payload of the
earliest candidate achieving the maximal common-leading length with the
query token among the eligible candidates (strict greater-than updates of
a stable scan); in particular, for the two "lee" entries with tokens "jo"
and "joh" and query token "john", both are eligible and "joh" wins with
common length 3 against 2. -/
theorem c3_tie_break :
    (∀ (ft : Str) (cands : List (Str × (Str × Str))),
      (prefixScan ft cands).1 = firstArgmax ft (eligibleCands ft cands)) ∧
    (lookup_mutual (build_mutual_index
        [⟨S "Lee, Jo", S "B1", S "Blue"⟩, ⟨S "Lee, Joh", S "B2", S "Gold"⟩])
        (S "lee") (S "john") = some (S "B2", S "Gold") ∧
      names_prefix_match (S "john") (S "jo") = true ∧
      names_prefix_match (S "john") (S "joh") = true ∧
      commonPrefixLen (S "john") (S "jo") = 2 ∧
      commonPrefixLen (S "john") (S "joh") = 3) := by
  constructor
  · intro ft cands
    rw [prefixScan, foldl_bestStep_eq_filtered,
      foldl_updStep_char ft (cands.filter (fun c => names_prefix_match ft c.1)) none (-1) le_rfl]
    cases hel : cands.filter (fun c => names_prefix_match ft c.1) with
    | nil => simp [firstArgmax, eligibleCands, hel, maxCommonI]
    | cons c rest =>
      have hcast := maxCommonI_eq_cast ft (c :: rest) (by simp)
      have hgt : ¬ maxCommonI ft (c :: rest) ≤ -1 := by
        rw [hcast]
        have := Int.natCast_nonneg (maxCommonLen ft (c :: rest))
        omega
      rw [if_neg hgt]
      simp only [firstArgmax, eligibleCands, hel]
      have hfun : (fun c' : Str × (Str × Str) =>
            decide ((commonPrefixLen ft c'.1 : Int) = maxCommonI ft (c :: rest)))
          = (fun c' : Str × (Str × Str) =>
            decide (commonPrefixLen ft c'.1 = maxCommonLen ft (c :: rest))) := by
        funext c'
        rw [hcast]
        exact decide_eq_decide.mpr Nat.cast_inj
      rw [hfun]
  · exact ⟨by decide, by decide, by decide, by decide, by decide⟩

/-! ## Canonical strings: the shape of normalized surnames -/

/-- A well-formed token: non-empty and free of whitespace. -/
def SpacelessTok (t : Str) : Prop := t ≠ [] ∧ ∀ c ∈ t, isPySpace c = false

theorem splitAux_canon : ∀ s acc : Str, (∀ c ∈ acc, isPySpace c = false) →
    ∀ t ∈ splitAux s acc, SpacelessTok t := by
  intro s
  induction s with
  | nil =>
    intro acc hacc t ht
    simp only [splitAux] at ht
    by_cases ha : acc.isEmpty
    · rw [if_pos ha] at ht
      exact absurd ht (List.not_mem_nil t)
    · rw [if_neg ha] at ht
      rcases List.mem_singleton.mp ht with rfl
      refine ⟨by simpa using fun he => ha (by simp [he]), ?_⟩
      intro c hc
      exact hacc c (List.mem_reverse.mp hc)
  | cons c rest ih =>
    intro acc hacc t ht
    simp only [splitAux] at ht
    cases hc : isPySpace c with
    | true =>
      rw [hc] at ht
      simp only [if_true] at ht
      by_cases ha : acc.isEmpty
      · rw [if_pos ha] at ht
        exact ih [] (by simp) t ht
      · rw [if_neg ha] at ht
        rcases List.mem_cons.mp ht with rfl | ht'
        · refine ⟨by simpa using fun he => ha (by simp [he]), ?_⟩
          intro x hx
          exact hacc x (List.mem_reverse.mp hx)
        · exact ih [] (by simp) t ht'
    | false =>
      rw [hc] at ht
      simp only [Bool.false_eq_true, if_false] at ht
      refine ih (c :: acc) ?_ t ht
      intro x hx
      rcases List.mem_cons.mp hx with rfl | hx'
      · exact hc
      · exact hacc x hx'

theorem pySplit_canon (s : Str) : ∀ t ∈ pySplit s, SpacelessTok t :=
  splitAux_canon s [] (by simp)

theorem splitAux_token_step : ∀ tok : Str, (∀ c ∈ tok, isPySpace c = false) →
    ∀ rest acc : Str, splitAux (tok ++ rest) acc = splitAux rest (tok.reverse ++ acc) := by
  intro tok
  induction tok with
  | nil => intro _ rest acc; simp
  | cons c tok' ih =>
    intro h rest acc
    have hc : isPySpace c = false := h c (by simp)
    simp only [List.cons_append, splitAux, hc, Bool.false_eq_true, if_false, List.append_eq]
    rw [ih (fun x hx => h x (by simp [hx])) rest (c :: acc)]
    congr 1
    simp

theorem splitAux_nil_flush (acc : Str) (h : acc ≠ []) : splitAux [] acc = [acc.reverse] := by
  simp [splitAux, h]

theorem splitAux_space_flush (c : Nat) (hc : isPySpace c = true) (rest acc : Str)
    (h : acc ≠ []) : splitAux (c :: rest) acc = acc.reverse :: splitAux rest [] := by
  simp [splitAux, hc, h]

theorem join_split_roundtrip : ∀ ts : List Str, (∀ t ∈ ts, SpacelessTok t) →
    pySplit (joinSpace ts) = ts := by
  intro ts
  induction ts with
  | nil => intro _; rfl
  | cons t ts' ih =>
    intro h
    have ht := h t (by simp)
    cases ts' with
    | nil =>
      show splitAux (joinSpace [t]) [] = [t]
      have : joinSpace [t] = t ++ [] := by simp [joinSpace]
      rw [this, splitAux_token_step t ht.2 [] []]
      rw [splitAux_nil_flush _ (by simpa using ht.1)]
      simp
    | cons u ts'' =>
      show splitAux (joinSpace (t :: u :: ts'')) [] = t :: u :: ts''
      rw [show joinSpace (t :: u :: ts'') = t ++ 32 :: joinSpace (u :: ts'') from rfl]
      rw [splitAux_token_step t ht.2 (32 :: joinSpace (u :: ts'')) []]
      rw [splitAux_space_flush 32 (by decide) _ _ (by simpa using ht.1)]
      have := ih (fun x hx => h x (by simp [hx]))
      rw [show splitAux (joinSpace (u :: ts'')) [] = pySplit (joinSpace (u :: ts'')) from rfl, this]
      simp

theorem joinSpace_ne_nil (t : Str) (ts : List Str) (h : t ≠ []) : joinSpace (t :: ts) ≠ [] := by
  cases ts with
  | nil => simpa [joinSpace] using h
  | cons u ts' =>
    show t ++ 32 :: joinSpace (u :: ts') ≠ []
    simp


theorem joinSpace_head_nonspace : ∀ ts : List Str, (∀ t ∈ ts, SpacelessTok t) →
    ∀ c, (joinSpace ts).head? = some c → isPySpace c = false := by
  intro ts
  induction ts with
  | nil => intro _ c hc; simp [joinSpace] at hc
  | cons t ts' _ =>
    intro h c hc
    have ht := h t (by simp)
    obtain ⟨d, t', rfl⟩ : ∃ d t', t = d :: t' := by
      cases t with
      | nil => exact absurd rfl ht.1
      | cons d t' => exact ⟨d, t', rfl⟩
    cases ts' with
    | nil =>
      simp only [joinSpace, List.head?_cons] at hc
      injection hc with hdc
      exact hdc ▸ ht.2 d (List.mem_cons_self d t')
    | cons u ts'' =>
      rw [show joinSpace ((d :: t') :: u :: ts'') = d :: (t' ++ 32 :: joinSpace (u :: ts''))
        from rfl, List.head?_cons] at hc
      injection hc with hdc
      exact hdc ▸ ht.2 d (List.mem_cons_self d t')

theorem joinSpace_last_nonspace : ∀ ts : List Str, (∀ t ∈ ts, SpacelessTok t) →
    ∀ c, (joinSpace ts).getLast? = some c → isPySpace c = false := by
  intro ts
  induction ts with
  | nil => intro _ c hc; simp [joinSpace] at hc
  | cons t ts' ih =>
    intro h c hc
    cases ts' with
    | nil =>
      have hjt : joinSpace [t] = t := by simp [joinSpace]
      rw [hjt] at hc
      obtain ⟨hne, heq⟩ := List.mem_getLast?_eq_getLast (Option.mem_def.mpr hc)
      exact (h t (by simp)).2 c (heq ▸ List.getLast_mem hne)
    | cons u ts'' =>
      rw [show joinSpace (t :: u :: ts'') = t ++ 32 :: joinSpace (u :: ts'') from rfl,
        List.getLast?_append_cons] at hc
      have hu : u ≠ [] := (h u (by simp)).1
      obtain ⟨e, j', hj⟩ : ∃ e j', joinSpace (u :: ts'') = e :: j' := by
        cases hj : joinSpace (u :: ts'') with
        | nil => exact absurd hj (joinSpace_ne_nil u ts'' hu)
        | cons e j' => exact ⟨e, j', rfl⟩
      rw [hj, List.getLast?_cons_cons, ← hj] at hc
      exact ih (fun x hx => h x (by simp [hx])) c hc

theorem pyStrip_joinSpace (ts : List Str) (h : ∀ t ∈ ts, SpacelessTok t) :
    pyStrip (joinSpace ts) = joinSpace ts := by
  cases hts : ts with
  | nil => rfl
  | cons t ts' =>
    subst hts
    have hdrop : (joinSpace (t :: ts')).dropWhile isPySpace = joinSpace (t :: ts') := by
      cases hj : joinSpace (t :: ts') with
      | nil => rfl
      | cons d j' =>
        rw [List.dropWhile_cons]
        have : isPySpace d = false := by
          apply joinSpace_head_nonspace (t :: ts') h d
          rw [hj, List.head?_cons]
        simp [this]
    rw [pyStrip, hdrop]
    have hdrop2 : (joinSpace (t :: ts')).reverse.dropWhile isPySpace =
        (joinSpace (t :: ts')).reverse := by
      cases hj : (joinSpace (t :: ts')).reverse with
      | nil => rfl
      | cons d j' =>
        rw [List.dropWhile_cons]
        have hd : (joinSpace (t :: ts')).getLast? = some d := by
          rw [← List.head?_reverse, hj, List.head?_cons]
        have : isPySpace d = false := joinSpace_last_nonspace (t :: ts') h d hd
        simp [this]
    rw [hdrop2, List.reverse_reverse]

theorem replSpaceComma_no_comma : ∀ s : Str, 44 ∉ s → replSpaceComma s = s := by
  intro s
  induction s using replSpaceComma.induct with
  | case1 => intro _; rfl
  | case2 c => intro _; rfl
  | case3 c d rest hcd ih =>
    intro hmem
    exact absurd (by simp [hcd.2]) hmem
  | case4 c d rest hcd ih =>
    intro hmem
    rw [replSpaceComma, if_neg hcd, ih (fun hm => hmem (by simp [hm]))]

theorem replCommaTwoSpaces_no_comma : ∀ s : Str, 44 ∉ s → replCommaTwoSpaces s = s := by
  intro s
  induction s using replCommaTwoSpaces.induct with
  | case1 => intro _; rfl
  | case2 c => intro _; rfl
  | case3 c d => intro _; rfl
  | case4 c d e rest hcd ih =>
    intro hmem
    exact absurd (by simp [hcd.1]) hmem
  | case5 c d e rest hcd ih =>
    intro hmem
    rw [replCommaTwoSpaces, if_neg hcd, ih (fun hm => hmem (by simp [hm]))]

theorem ne32_of_nonspace {c : Nat} (h : isPySpace c = false) : ¬ c = 32 := by
  intro hc
  subst hc
  simp [isPySpace] at h

theorem replTwoSpaces_token_step : ∀ tok : Str, (∀ c ∈ tok, isPySpace c = false) →
    ∀ rest : Str, replTwoSpaces (tok ++ rest) = tok ++ replTwoSpaces rest := by
  intro tok
  induction tok with
  | nil => intro _ rest; rfl
  | cons c tok' ih =>
    intro h rest
    have hc : ¬ c = 32 := ne32_of_nonspace (h c (by simp))
    cases htr : tok' ++ rest with
    | nil =>
      rcases List.append_eq_nil.mp htr with ⟨rfl, rfl⟩
      rfl
    | cons d X =>
      rw [List.cons_append, htr, replTwoSpaces, if_neg (fun hcd => hc hcd.1), ← htr,
        ih (fun x hx => h x (by simp [hx])) rest, List.cons_append]

theorem replTwoSpaces_joinSpace : ∀ ts : List Str, (∀ t ∈ ts, SpacelessTok t) →
    replTwoSpaces (joinSpace ts) = joinSpace ts := by
  intro ts
  induction ts with
  | nil => intro _; rfl
  | cons t ts' ih =>
    intro h
    have ht := h t (by simp)
    cases ts' with
    | nil =>
      have : joinSpace [t] = t ++ [] := by simp [joinSpace]
      rw [this, replTwoSpaces_token_step t ht.2 []]
      rfl
    | cons u ts'' =>
      rw [show joinSpace (t :: u :: ts'') = t ++ 32 :: joinSpace (u :: ts'') from rfl,
        replTwoSpaces_token_step t ht.2]
      obtain ⟨e, j', hj⟩ : ∃ e j', joinSpace (u :: ts'') = e :: j' := by
        cases hj : joinSpace (u :: ts'') with
        | nil => exact absurd hj (joinSpace_ne_nil u ts'' (h u (by simp)).1)
        | cons e j' => exact ⟨e, j', rfl⟩
      have he : isPySpace e = false := by
        apply joinSpace_head_nonspace (u :: ts'') (fun x hx => h x (by simp [hx])) e
        rw [hj, List.head?_cons]
      rw [hj, replTwoSpaces, if_neg (fun hcd => ne32_of_nonspace he hcd.2), ← hj,
        ih (fun x hx => h x (by simp [hx]))]

/-! ## Character provenance through normalization -/

theorem mem_pyStrip {c : Nat} {s : Str} (h : c ∈ pyStrip s) : c ∈ s := by
  unfold pyStrip at h
  have h1 := (List.dropWhile_sublist isPySpace).subset (List.mem_reverse.mp h)
  exact (List.dropWhile_sublist isPySpace).subset (List.mem_reverse.mp h1)

theorem mem_token_of_splitAux : ∀ s acc t : Str, t ∈ splitAux s acc →
    ∀ c ∈ t, c ∈ s ∨ c ∈ acc := by
  intro s
  induction s with
  | nil =>
    intro acc t ht c hc
    simp only [splitAux] at ht
    by_cases ha : acc.isEmpty
    · rw [if_pos ha] at ht
      exact absurd ht (List.not_mem_nil t)
    · rw [if_neg ha] at ht
      rcases List.mem_singleton.mp ht with rfl
      exact Or.inr (List.mem_reverse.mp hc)
  | cons a s' ih =>
    intro acc t ht c hc
    simp only [splitAux] at ht
    cases hasp : isPySpace a with
    | true =>
      rw [hasp, if_pos rfl] at ht
      by_cases ha : acc.isEmpty
      · rw [if_pos ha] at ht
        rcases ih [] t ht c hc with hin | hin
        · exact Or.inl (by simp [hin])
        · exact absurd hin (List.not_mem_nil c)
      · rw [if_neg ha] at ht
        rcases List.mem_cons.mp ht with rfl | ht'
        · exact Or.inr (List.mem_reverse.mp hc)
        · rcases ih [] t ht' c hc with hin | hin
          · exact Or.inl (by simp [hin])
          · exact absurd hin (List.not_mem_nil c)
    | false =>
      rw [hasp] at ht
      simp only [Bool.false_eq_true, if_false] at ht
      rcases ih (a :: acc) t ht c hc with hin | hin
      · exact Or.inl (by simp [hin])
      · rcases List.mem_cons.mp hin with rfl | hin'
        · exact Or.inl (by simp)
        · exact Or.inr hin'

theorem mem_pySplit_token {c : Nat} {s t : Str} (ht : t ∈ pySplit s) (hc : c ∈ t) : c ∈ s := by
  rcases mem_token_of_splitAux s [] t ht c hc with h | h
  · exact h
  · exact absurd h (List.not_mem_nil c)

theorem mem_joinSpace {c : Nat} : ∀ {ts : List Str}, c ∈ joinSpace ts →
    c = 32 ∨ ∃ t ∈ ts, c ∈ t := by
  intro ts
  induction ts with
  | nil => intro h; exact absurd h (List.not_mem_nil c)
  | cons t ts' ih =>
    intro h
    cases ts' with
    | nil =>
      right
      exact ⟨t, by simp, by simpa [joinSpace] using h⟩
    | cons u ts'' =>
      rw [show joinSpace (t :: u :: ts'') = t ++ 32 :: joinSpace (u :: ts'') from rfl] at h
      rcases List.mem_append.mp h with h1 | h1
      · exact Or.inr ⟨t, by simp, h1⟩
      · rcases List.mem_cons.mp h1 with rfl | h2
        · exact Or.inl rfl
        · rcases ih h2 with h32 | ⟨v, hv, hcv⟩
          · exact Or.inl h32
          · exact Or.inr ⟨v, by simp [hv], hcv⟩

theorem mem_replSpaceComma {c : Nat} : ∀ s : Str, c ∈ replSpaceComma s → c ∈ s := by
  intro s
  induction s using replSpaceComma.induct with
  | case1 => intro h; exact h
  | case2 d => intro h; exact h
  | case3 d e rest hde ih =>
    intro h
    rw [replSpaceComma, if_pos hde] at h
    rcases List.mem_cons.mp h with rfl | h'
    · simp [hde.2]
    · simp [ih h']
  | case4 d e rest hde ih =>
    intro h
    rw [replSpaceComma, if_neg hde] at h
    rcases List.mem_cons.mp h with rfl | h'
    · simp
    · simp [ih h']

theorem mem_replCommaTwoSpaces {c : Nat} : ∀ s : Str, c ∈ replCommaTwoSpaces s → c ∈ s := by
  intro s
  induction s using replCommaTwoSpaces.induct with
  | case1 => intro h; exact h
  | case2 d => intro h; exact h
  | case3 d e => intro h; exact h
  | case4 d e f rest hdef ih =>
    intro h
    rw [replCommaTwoSpaces, if_pos hdef] at h
    rcases List.mem_cons.mp h with rfl | h'
    · simp [hdef.1]
    · rcases List.mem_cons.mp h' with rfl | h''
      · simp [hdef.2.1]
      · simp [ih h'']
  | case5 d e f rest hdef ih =>
    intro h
    rw [replCommaTwoSpaces, if_neg hdef] at h
    rcases List.mem_cons.mp h with rfl | h'
    · simp
    · simp [ih h']

theorem mem_replTwoSpaces {c : Nat} : ∀ s : Str, c ∈ replTwoSpaces s → c ∈ s := by
  intro s
  induction s using replTwoSpaces.induct with
  | case1 => intro h; exact h
  | case2 d => intro h; exact h
  | case3 d e rest hde ih =>
    intro h
    rw [replTwoSpaces, if_pos hde] at h
    rcases List.mem_cons.mp h with rfl | h'
    · simp [hde.1]
    · simp [ih h']
  | case4 d e rest hde ih =>
    intro h
    rw [replTwoSpaces, if_neg hde] at h
    rcases List.mem_cons.mp h with rfl | h'
    · simp
    · simp [ih h']

theorem mem_clean_spaces {c : Nat} {s : Str} (h : c ∈ clean_spaces s) : c = 32 ∨ c ∈ s := by
  unfold clean_spaces at h
  by_cases hs : s = []
  · rw [if_pos hs] at h
    exact absurd h (List.not_mem_nil c)
  · rw [if_neg hs] at h
    rcases mem_joinSpace h with h32 | ⟨t, ht, hct⟩
    · exact Or.inl h32
    · exact Or.inr (mem_pyStrip (mem_replSpaceComma _ (mem_replCommaTwoSpaces _
        (mem_replTwoSpaces _ (mem_pySplit_token ht hct)))))

theorem mem_normalize_basic {c : Nat} {x : Str} (h : c ∈ normalize_basic x) :
    (c = 32 ∨ c ∈ (pyStrip x).map pyLower) ∧ c ≠ 46 ∧ c ≠ 39 := by
  unfold normalize_basic at h
  have h39 := List.mem_filter.mp h
  have h46 := List.mem_filter.mp h39.1
  refine ⟨mem_clean_spaces h46.1, by simpa using h46.2, by simpa using h39.2⟩

theorem mem_strip_suffixes {c : Nat} {s : Str} (h : c ∈ strip_suffixes s) :
    c = 32 ∨ c ∈ s := by
  unfold strip_suffixes at h
  rcases mem_joinSpace h with h32 | ⟨t, ht, hct⟩
  · exact Or.inl h32
  · have ht' : t ∈ pySplit s := by
      have h1 := List.mem_reverse.mp ht
      exact List.mem_reverse.mp ((List.dropWhile_sublist isSuffixTok).subset h1)
    exact Or.inr (mem_pySplit_token ht' hct)

/-! ## ASCII lower-casing facts -/

theorem pyLower_pyLower (c : Nat) : pyLower (pyLower c) = pyLower c := by
  by_cases h : 65 ≤ c ∧ c ≤ 90
  · have h1 : pyLower c = c + 32 := by rw [pyLower, if_pos h]
    rw [h1, pyLower, if_neg (by omega)]
  · have h1 : pyLower c = c := by rw [pyLower, if_neg h]
    rw [h1]
    exact h1

theorem pyLower_eq_low {c k : Nat} (hk : k < 97) (h : pyLower c = k) : c = k := by
  by_cases hc : 65 ≤ c ∧ c ≤ 90
  · rw [pyLower, if_pos hc] at h
    omega
  · rw [pyLower, if_neg hc] at h
    exact h

theorem surname_char {c : Nat} {x : Str} (h : c ∈ strip_suffixes (normalize_basic x)) :
    c = 32 ∨ ((∃ d ∈ pyStrip x, c = pyLower d) ∧ c ≠ 46 ∧ c ≠ 39) := by
  rcases mem_strip_suffixes h with h32 | hn
  · exact Or.inl h32
  · obtain ⟨h1, h46, h39⟩ := mem_normalize_basic hn
    rcases h1 with h32 | hmap
    · exact Or.inl h32
    · obtain ⟨d, hd, hdc⟩ := List.mem_map.mp hmap
      exact Or.inr ⟨⟨d, hd, hdc.symm⟩, h46, h39⟩

/-! ## Fixed points of the normalizer on canonical surnames -/

theorem head_dropWhile_false {α : Type} (p : α → Bool) :
    ∀ (l : List α) (a : α), (l.dropWhile p).head? = some a → p a = false := by
  intro l
  induction l with
  | nil => intro a h; simp [List.dropWhile] at h
  | cons b l' ih =>
    intro a h
    rw [List.dropWhile_cons] at h
    by_cases hb : p b = true
    · rw [if_pos hb] at h
      exact ih a h
    · rw [if_neg hb] at h
      rw [List.head?_cons] at h
      injection h with hba
      subst hba
      exact Bool.not_eq_true _ ▸ hb

theorem strip_suffixes_fixed (ts : List Str) (h : ∀ t ∈ ts, SpacelessTok t)
    (hlast : ∀ a, ts.getLast? = some a → isSuffixTok a = false) :
    strip_suffixes (joinSpace ts) = joinSpace ts := by
  unfold strip_suffixes
  rw [join_split_roundtrip ts h]
  have hdw : ts.reverse.dropWhile isSuffixTok = ts.reverse := by
    cases hr : ts.reverse with
    | nil => rfl
    | cons a r' =>
      rw [List.dropWhile_cons]
      have ha : ts.getLast? = some a := by rw [← List.head?_reverse, hr, List.head?_cons]
      rw [hlast a ha]
      simp
  rw [hdw, List.reverse_reverse]

theorem normalize_basic_fixed (ts : List Str) (h : ∀ t ∈ ts, SpacelessTok t)
    (hlow : ∀ c ∈ joinSpace ts, pyLower c = c)
    (hnc : 44 ∉ joinSpace ts) (hnd : 46 ∉ joinSpace ts) (hna : 39 ∉ joinSpace ts) :
    normalize_basic (joinSpace ts) = joinSpace ts := by
  have hstrip : pyStrip (joinSpace ts) = joinSpace ts := pyStrip_joinSpace ts h
  have hmap : (joinSpace ts).map pyLower = joinSpace ts :=
    (List.map_congr_left hlow).trans (List.map_id _)
  have hclean : clean_spaces (joinSpace ts) = joinSpace ts := by
    by_cases hts : joinSpace ts = []
    · rw [clean_spaces, if_pos hts, hts]
    · rw [clean_spaces, if_neg hts, hstrip, replSpaceComma_no_comma _ hnc,
        replCommaTwoSpaces_no_comma _ hnc, replTwoSpaces_joinSpace ts h,
        join_split_roundtrip ts h]
  have hf46 : (joinSpace ts).filter (fun c => c ≠ 46) = joinSpace ts := by
    apply List.filter_eq_self.mpr
    intro a ha
    simp only [ne_eq, decide_not, Bool.not_eq_true', decide_eq_false_iff_not]
    intro he
    exact hnd (he ▸ ha)
  have hf39 : (joinSpace ts).filter (fun c => c ≠ 39) = joinSpace ts := by
    apply List.filter_eq_self.mpr
    intro a ha
    simp only [ne_eq, decide_not, Bool.not_eq_true', decide_eq_false_iff_not]
    intro he
    exact hna (he ▸ ha)
  unfold normalize_basic
  rw [hstrip, hmap, hclean]
  simp only [hf46, hf39]

/-! ## The shape of a parsed surname -/

theorem parse_last_first_eq (n : Str) (hn : n ≠ []) :
    parse_patient_name n FormatHint.last_first =
      (let nm := pyStrip n
       let last0 := if 44 ∈ nm then pyStrip (splitFirstComma nm).1 else nm
       let first0 := if 44 ∈ nm then pyStrip (splitFirstComma nm).2 else []
       let last1 := if 40 ∈ last0 then pyStrip (last0.takeWhile (fun c => c ≠ 40)) else last0
       (strip_suffixes (normalize_basic last1),
        (pySplit (strip_suffixes (normalize_basic first0))).headD [])) := by
  rw [parse_patient_name, if_neg hn]
  by_cases hc : 44 ∈ pyStrip n <;> simp [hc]

theorem parse_surname_shape (n : Str) :
    ∃ x : Str, 44 ∉ x ∧ 40 ∉ x ∧
      (parse_patient_name n FormatHint.last_first).1 = strip_suffixes (normalize_basic x) := by
  by_cases hn : n = []
  · exact ⟨[], by simp, by simp, by rw [hn]; decide⟩
  · rw [parse_last_first_eq n hn]
    by_cases hc : 44 ∈ pyStrip n
    · have h44 : 44 ∉ pyStrip (splitFirstComma (pyStrip n)).1 := by
        intro hm
        have h1 := List.mem_takeWhile_imp (mem_pyStrip hm)
        simp at h1
      by_cases hp : 40 ∈ pyStrip (splitFirstComma (pyStrip n)).1
      · refine ⟨pyStrip ((pyStrip (splitFirstComma (pyStrip n)).1).takeWhile (fun c => c ≠ 40)),
          ?_, ?_, by simp [hc, hp]⟩
        · intro hm
          exact h44 ((List.takeWhile_sublist _).subset (mem_pyStrip hm))
        · intro hm
          have h1 := List.mem_takeWhile_imp (mem_pyStrip hm)
          simp at h1
      · exact ⟨pyStrip (splitFirstComma (pyStrip n)).1, h44, hp, by simp [hc, hp]⟩
    · by_cases hp : 40 ∈ pyStrip n
      · refine ⟨pyStrip ((pyStrip n).takeWhile (fun c => c ≠ 40)), ?_, ?_, by simp [hc, hp]⟩
        · intro hm
          exact hc ((List.takeWhile_sublist _).subset (mem_pyStrip hm))
        · intro hm
          have h1 := List.mem_takeWhile_imp (mem_pyStrip hm)
          simp at h1
      · exact ⟨pyStrip n, hc, hp, by simp [hc, hp]⟩

/-- C10: normalization is idempotent on surnames under the `last_first`
hint — re-parsing an already-normalized surname returns the same surname.
-/
theorem c10_surname_idempotent (n : Str) :
    (parse_patient_name (parse_patient_name n FormatHint.last_first).1 FormatHint.last_first).1 =
      (parse_patient_name n FormatHint.last_first).1 := by
  obtain ⟨x, h44, h40, hs⟩ := parse_surname_shape n
  rw [hs]
  by_cases hsnil : strip_suffixes (normalize_basic x) = []
  · rw [hsnil]
    simp [parse_patient_name]
  · set ts := ((pySplit (normalize_basic x)).reverse.dropWhile isSuffixTok).reverse with hts
    have hsj : strip_suffixes (normalize_basic x) = joinSpace ts := rfl
    have hcanon : ∀ t ∈ ts, SpacelessTok t := by
      intro t ht
      apply pySplit_canon (normalize_basic x)
      rw [hts] at ht
      exact List.mem_reverse.mp
        ((List.dropWhile_sublist isSuffixTok).subset (List.mem_reverse.mp ht))
    have hlastTok : ∀ a, ts.getLast? = some a → isSuffixTok a = false := by
      intro a ha
      rw [← List.head?_reverse, hts, List.reverse_reverse] at ha
      exact head_dropWhile_false isSuffixTok _ a ha
    have hchar : ∀ c ∈ joinSpace ts,
        c = 32 ∨ ((∃ d ∈ pyStrip x, c = pyLower d) ∧ c ≠ 46 ∧ c ≠ 39) := by
      intro c hcm
      exact surname_char (hsj ▸ hcm)
    have hlow : ∀ c ∈ joinSpace ts, pyLower c = c := by
      intro c hcm
      rcases hchar c hcm with h32 | ⟨⟨d, _, rfl⟩, _, _⟩
      · rw [h32]
        decide
      · exact pyLower_pyLower d
    have hnc : 44 ∉ joinSpace ts := by
      intro hm
      rcases hchar 44 hm with h32 | ⟨⟨d, hd, hdl⟩, _, _⟩
      · exact absurd h32 (by decide)
      · have hd44 : (44 : Nat) ∈ pyStrip x := by
          rwa [pyLower_eq_low (by omega) hdl.symm] at hd
        exact h44 (mem_pyStrip hd44)
    have hnp : 40 ∉ joinSpace ts := by
      intro hm
      rcases hchar 40 hm with h32 | ⟨⟨d, hd, hdl⟩, _, _⟩
      · exact absurd h32 (by decide)
      · have hd40 : (40 : Nat) ∈ pyStrip x := by
          rwa [pyLower_eq_low (by omega) hdl.symm] at hd
        exact h40 (mem_pyStrip hd40)
    have hnd : 46 ∉ joinSpace ts := by
      intro hm
      rcases hchar 46 hm with h32 | ⟨_, h46, _⟩
      · exact absurd h32 (by decide)
      · exact h46 rfl
    have hna : 39 ∉ joinSpace ts := by
      intro hm
      rcases hchar 39 hm with h32 | ⟨_, _, h39⟩
      · exact absurd h32 (by decide)
      · exact h39 rfl
    have hstrip : pyStrip (joinSpace ts) = joinSpace ts := pyStrip_joinSpace ts hcanon
    rw [hsj] at hsnil ⊢
    rw [parse_last_first_eq (joinSpace ts) hsnil]
    simp only [hstrip]
    rw [if_neg hnc, if_neg hnp]
    rw [normalize_basic_fixed ts hcanon hlow hnc hnd hna,
      strip_suffixes_fixed ts hcanon hlastTok]
